import Mathlib

/-!
Verification of the Swiss Real Estate Dashboard data pipeline.

Shallow embedding of the data-preparation logic of `app_local.py` and
`app_snowflake.py`:

* `parseDecimal` / `toNumericVal` model the pandas numeric coercion with
  errors=coerce on a cell: already-numeric values pass through, decimal strings parse,
  everything else becomes missing (`none`, pandas `NaN`).
* `round2` models `.round(2)`: numpy rounds half to even, so `rhe` is
  round-half-to-even on rationals scaled by 100.
* `cleanVal` / `keepVal` / `cleaner` model the coercion of the Price column
  to numeric with rounding to 2 decimals, followed by the filter keeping rows
  whose Price compares greater than zero (app_local.py lines 9-12,
  app_snowflake.py lines 45-46).  A pandas comparison of NaN with 0 is False,
  so missing prices are dropped by the filter.
* `meanPrices` models the groupby-Locality mean of Price with dropna and
  rounding to 2 decimals (app_local.py line 51): for each locality present in the cleaned rows the
  arithmetic mean of its prices, rounded to 2 decimals.  Over exact rationals
  the mean of a nonempty group is always defined, so `dropna` is a no-op.
* `nlargest` / `nsmallest` model the pandas Series nlargest and nsmallest
  methods (app_local.py lines 54 and 71): a stable sort by value, descending resp.
  ascending, followed by taking the first `n` entries.
* `DF`, `renameDF`, `preprocess` model the preprocess_data function of
  app_snowflake.py (lines 30-47): the in-place rename renames exactly the
  listed lowercase column names; selecting the PRICE column raises KeyError
  when no column carries that label, and when the rename has produced
  duplicate PRICE labels (a source carrying both spellings) the selection
  yields a two-column frame on which the numeric coercion raises TypeError —
  both failure paths are modeled as `Except.error`.  Because the rename
  and the price assignment are in-place, `preprocessInputAfter` gives the
  state of the frame object of the caller after preprocess_data returns.
-/

/-- A cell value of the table: missing (pandas `NaN`/`None`), a number,
or a string. -/
inductive Val where
  | null : Val
  | num : ℚ → Val
  | str : String → Val
deriving DecidableEq, Repr

/-- Numeric value of a decimal digit character. -/
def digitVal (c : Char) : ℕ := c.toNat - 48

/-- Natural number denoted by a digit string (most significant first). -/
def natOfDigits (cs : List Char) : ℕ := cs.foldl (fun a c => 10 * a + digitVal c) 0

/-- Parse a decimal literal the way the pandas numeric coercion with
errors=coerce accepts it on a string cell: optional sign, integer digits, optional dot and
fraction digits; anything else is coerced to missing.  (Scientific notation
and surrounding whitespace are outside the inputs this development uses.) -/
def parseDecimal (s : String) : Option ℚ :=
  let cs := s.toList
  let signBody : Bool × List Char :=
    match cs with
    | '-' :: r => (true, r)
    | '+' :: r => (false, r)
    | _ => (false, cs)
  let neg := signBody.1
  let body := signBody.2
  let ip := body.takeWhile (fun c => c ≠ '.')
  let rest := body.dropWhile (fun c => c ≠ '.')
  let fp? : Option (List Char) :=
    match rest with
    | [] => some []
    | _ :: r => if r.any (fun c => c = '.') then none else some r
  match fp? with
  | none => none
  | some fp =>
    if ip.all (fun c => c.isDigit) && fp.all (fun c => c.isDigit)
        && !(ip.isEmpty && fp.isEmpty) then
      let v : ℚ := (natOfDigits ip : ℚ) + (natOfDigits fp : ℚ) / ((10 : ℚ) ^ fp.length)
      some (if neg then -v else v)
    else
      none

/-- Numeric coercion of one cell, as pandas to_numeric with errors=coerce. -/
def toNumericVal : Val → Option ℚ
  | Val.null => none
  | Val.num q => some q
  | Val.str s => parseDecimal s

/-- Round a rational to the nearest integer, halves to the even neighbour
(numpy/pandas rounding). -/
def rhe (q : ℚ) : ℤ :=
  if q - ⌊q⌋ < 1 / 2 then ⌊q⌋
  else if 1 / 2 < q - ⌊q⌋ then ⌊q⌋ + 1
  else if ⌊q⌋ % 2 = 0 then ⌊q⌋ else ⌊q⌋ + 1

/-- Rounding to 2 decimal places, halves to even, as the pandas round(2). -/
def round2 (q : ℚ) : ℚ := (rhe (q * 100) : ℚ) / 100

/-- Predicate: `q` has at most 2 decimal places. -/
def twoDecimal (q : ℚ) : Prop := (q * 100).den = 1

instance (q : ℚ) : Decidable (twoDecimal q) := by
  unfold twoDecimal; infer_instance

/-- The coerce-and-round step applied to one price cell: numeric coercion
with errors=coerce, then rounding to 2 decimals. -/
def cleanVal (v : Val) : Val :=
  match toNumericVal v with
  | some q => Val.num (round2 q)
  | none => Val.null

/-- The filter predicate comparing one (already coerced) price cell with 0;
pandas evaluates a comparison of NaN with 0 to False. -/
def keepVal (v : Val) : Bool :=
  match v with
  | Val.num q => decide (0 < q)
  | _ => false

/-- A canonical record, restricted to the fields the pipeline reads:
the grouping key `Locality` and the `Price` cell. -/
structure Row where
  locality : String
  price : Val
deriving DecidableEq, Repr

/-- The Cleaner (app_local.py lines 9-12): coerce and round every price,
then keep exactly the rows whose price compares `> 0`. -/
def cleaner (l : List Row) : List Row :=
  (l.map (fun r => { r with price := cleanVal r.price })).filter
    (fun r => keepVal r.price)

/- ### Rounding lemmas -/

theorem rhe_intCast (n : ℤ) : rhe (n : ℚ) = n := by
  unfold rhe
  simp

theorem le_rhe (q : ℚ) : ⌊q⌋ ≤ rhe q := by
  unfold rhe
  split_ifs <;> omega

theorem rhe_le (q : ℚ) : rhe q ≤ ⌊q⌋ + 1 := by
  unfold rhe
  split_ifs <;> omega

theorem rhe_mono {x y : ℚ} (h : x ≤ y) : rhe x ≤ rhe y := by
  rcases lt_or_eq_of_le (Int.floor_le_floor h) with hf | hf
  · calc rhe x ≤ ⌊x⌋ + 1 := rhe_le x
      _ ≤ ⌊y⌋ := by omega
      _ ≤ rhe y := le_rhe y
  · unfold rhe
    rw [hf]
    have hxy : x - ⌊y⌋ ≤ y - ⌊y⌋ := by linarith
    split_ifs <;> first | omega | linarith

theorem round2_mono {x y : ℚ} (h : x ≤ y) : round2 x ≤ round2 y := by
  unfold round2
  have : rhe (x * 100) ≤ rhe (y * 100) := rhe_mono (by linarith)
  have : ((rhe (x * 100) : ℤ) : ℚ) ≤ ((rhe (y * 100) : ℤ) : ℚ) := by
    exact_mod_cast this
  linarith

theorem twoDecimal_round2 (q : ℚ) : twoDecimal (round2 q) := by
  unfold twoDecimal round2
  have : (rhe (q * 100) : ℚ) / 100 * 100 = (rhe (q * 100) : ℚ) := by
    field_simp
  rw [this]
  exact Rat.den_intCast _

theorem round2_fix {q : ℚ} (h : twoDecimal q) : round2 q = q := by
  unfold twoDecimal at h
  have hq : ((q * 100).num : ℚ) = q * 100 := by
    conv_rhs => rw [← Rat.num_div_den (q * 100)]
    rw [h]
    simp
  unfold round2
  rw [← hq, rhe_intCast, hq]
  field_simp

theorem round2_zero : round2 0 = 0 := round2_fix (by unfold twoDecimal; norm_num)

/- ### Cleaner lemmas -/

theorem cleanVal_fix {q : ℚ} (h : twoDecimal q) :
    cleanVal (Val.num q) = Val.num q := by
  simp [cleanVal, toNumericVal, round2_fix h]

theorem mem_cleaner {l : List Row} {r : Row} (h : r ∈ cleaner l) :
    ∃ q : ℚ, r.price = Val.num q ∧ 0 < q ∧ twoDecimal q := by
  unfold cleaner at h
  rw [List.mem_filter] at h
  obtain ⟨hm, hk⟩ := h
  rw [List.mem_map] at hm
  obtain ⟨r₀, _, hr⟩ := hm
  subst hr
  simp only [keepVal] at hk
  cases hc : cleanVal r₀.price with
  | null => simp [hc] at hk
  | str s => simp [hc] at hk
  | num q =>
    refine ⟨q, by simp [hc], ?_, ?_⟩
    · simp [hc] at hk
      exact hk
    · unfold cleanVal at hc
      cases hn : toNumericVal r₀.price with
      | none => rw [hn] at hc; simp at hc
      | some q₀ =>
        rw [hn] at hc
        simp at hc
        rw [← hc]
        exact twoDecimal_round2 q₀

theorem cleaner_cons (r : Row) (t : List Row) :
    cleaner (r :: t) =
      (if keepVal (cleanVal r.price) = true
        then [{ r with price := cleanVal r.price }] else []) ++ cleaner t := by
  unfold cleaner
  rw [List.map_cons, List.filter_cons]
  split_ifs <;> simp_all

/-- C1: the Cleaner retains a row if and only if its coerced-and-rounded price
is non-null and strictly greater than zero, and every cleaned row has a price
that is positive with at most 2 decimal places. -/
theorem c1_cleaner_retains_iff (l : List Row) :
    cleaner l = l.filterMap (fun r =>
      match (toNumericVal r.price).map round2 with
      | some q => if 0 < q then some { locality := r.locality, price := Val.num q } else none
      | none => none)
    ∧ ∀ r ∈ cleaner l, ∃ q : ℚ, r.price = Val.num q ∧ 0 < q ∧ twoDecimal q := by
  refine ⟨?_, fun r hr => mem_cleaner hr⟩
  induction l with
  | nil => rfl
  | cons r t ih =>
    rw [cleaner_cons, List.filterMap_cons, ← ih]
    cases hn : toNumericVal r.price with
    | none => simp [cleanVal, hn, keepVal]
    | some q =>
      by_cases hq : 0 < round2 q
      · simp [cleanVal, hn, keepVal, hq]
      · simp [cleanVal, hn, keepVal, hq]

/-- Scenario input from the spec: Zurich 500000, Bern 0, Geneva unparseable,
Zurich 300000. -/
def scenarioRows : List Row :=
  [⟨"Zurich", Val.str "500000"⟩, ⟨"Bern", Val.str "0"⟩,
   ⟨"Geneva", Val.str "abc"⟩, ⟨"Zurich", Val.str "300000"⟩]

/-- Closed instance of `c1_cleaner_retains_iff` at the scenario rows. -/
theorem c1_witness :
    cleaner scenarioRows = scenarioRows.filterMap (fun r =>
        match (toNumericVal r.price).map round2 with
        | some q => if 0 < q then some { locality := r.locality, price := Val.num q } else none
        | none => none)
    ∧ ∀ r ∈ cleaner scenarioRows,
        ∃ q : ℚ, r.price = Val.num q ∧ 0 < q ∧ twoDecimal q :=
  c1_cleaner_retains_iff scenarioRows

/-- C7: the Cleaner is idempotent — applying it to its own output changes
nothing. -/
theorem c7_cleaner_idempotent (l : List Row) : cleaner (cleaner l) = cleaner l := by
  have h1 : ∀ r ∈ cleaner l, cleanVal r.price = r.price ∧ keepVal r.price = true := by
    intro r hr
    obtain ⟨q, hp, hq, hd⟩ := mem_cleaner hr
    refine ⟨?_, ?_⟩
    · rw [hp]; exact cleanVal_fix hd
    · rw [hp]; simp [keepVal, hq]
  have hmap : (cleaner l).map (fun r => { r with price := cleanVal r.price }) = cleaner l := by
    conv_rhs => rw [← List.map_id (cleaner l)]
    apply List.map_congr_left
    intro r hr
    have := (h1 r hr).1
    cases r
    simp_all
  show ((cleaner l).map (fun r => { r with price := cleanVal r.price })).filter
      (fun r => keepVal r.price) = cleaner l
  rw [hmap]
  exact List.filter_eq_self.mpr (fun r hr => (h1 r hr).2)

/-- C10: a row whose raw price parses to a strictly positive value below
0.005 is nevertheless discarded: its price rounds to 0 and then fails the
`> 0` filter. -/
theorem c10_positive_price_discarded :
    ∃ (r : Row) (q : ℚ), toNumericVal r.price = some q ∧ 0 < q ∧
      cleanVal r.price = Val.num 0 ∧ keepVal (cleanVal r.price) = false ∧
      cleaner [r] = [] := by
  refine ⟨⟨"Zurich", Val.str "0.004"⟩, 1/250, ?_, by norm_num, ?_, ?_, ?_⟩
  · simp +decide [toNumericVal, parseDecimal, natOfDigits, digitVal]
    norm_num
  · simp +decide [cleanVal, toNumericVal, parseDecimal, natOfDigits, digitVal]
    norm_num [round2, rhe]
  · simp +decide [cleanVal, toNumericVal, parseDecimal, natOfDigits, digitVal]
    norm_num [round2, rhe, keepVal]
  · simp +decide [cleaner, cleanVal, toNumericVal, parseDecimal, natOfDigits, digitVal]
    norm_num [round2, rhe, keepVal]

/- ### Aggregator (app_local.py line 51, app_snowflake.py line 91):
the groupby-Locality mean of Price with dropna and rounding to 2 decimals -/

/-- The prices of the group of rows whose locality is exactly `k`. -/
def groupPrices (l : List (String × ℚ)) (k : String) : List ℚ :=
  (l.filter (fun r => r.1 == k)).map Prod.snd

/-- Per-locality mean price, rounded to 2 decimals, one entry per locality
occurring in the cleaned rows.  `dropna` is the identity here: over exact
rationals the mean of a nonempty group is always defined. -/
def meanPrices (l : List (String × ℚ)) : List (String × ℚ) :=
  ((l.map Prod.fst).dedup).map (fun k =>
    (k, round2 ((groupPrices l k).sum / ((groupPrices l k).length : ℚ))))

theorem exists_min_mem (l : List ℚ) (h : l ≠ []) : ∃ a ∈ l, ∀ b ∈ l, a ≤ b := by
  induction l with
  | nil => exact absurd rfl h
  | cons b t ih =>
    cases t with
    | nil => exact ⟨b, by simp⟩
    | cons c u =>
      obtain ⟨a, ha, hmin⟩ := ih (by simp)
      by_cases hab : b ≤ a
      · exact ⟨b, by simp, fun x hx => by
          rcases List.mem_cons.mp hx with hx | hx
          · simp [hx]
          · exact le_trans hab (hmin x hx)⟩
      · exact ⟨a, List.mem_cons_of_mem _ ha, fun x hx => by
          rcases List.mem_cons.mp hx with hx | hx
          · subst hx; linarith [lt_of_not_le hab]
          · exact hmin x hx⟩

theorem exists_max_mem (l : List ℚ) (h : l ≠ []) : ∃ a ∈ l, ∀ b ∈ l, b ≤ a := by
  obtain ⟨a, ha, hmin⟩ := exists_min_mem (l.map Neg.neg) (by simpa using h)
  rw [List.mem_map] at ha
  obtain ⟨x, hx, hxa⟩ := ha
  refine ⟨x, hx, fun b hb => ?_⟩
  have := hmin (-b) (List.mem_map_of_mem _ hb)
  have hax : a = -x := hxa.symm
  linarith [hax ▸ this]

theorem mul_length_le_sum {a : ℚ} {l : List ℚ} (h : ∀ b ∈ l, a ≤ b) :
    a * l.length ≤ l.sum := by
  induction l with
  | nil => simp
  | cons b t ih =>
    have hb := h b (by simp)
    have ht := ih (fun x hx => h x (List.mem_cons_of_mem _ hx))
    simp only [List.sum_cons, List.length_cons]
    push_cast
    linarith

theorem sum_le_mul_length {a : ℚ} {l : List ℚ} (h : ∀ b ∈ l, b ≤ a) :
    l.sum ≤ a * l.length := by
  induction l with
  | nil => simp
  | cons b t ih =>
    have hb := h b (by simp)
    have ht := ih (fun x hx => h x (List.mem_cons_of_mem _ hx))
    simp only [List.sum_cons, List.length_cons]
    push_cast
    linarith

/-- C2: for every nonempty locality group of cleaned rows, the aggregator
contains exactly the entry `(k, round2 (sum / count))`, and that rounded mean
lies between the minimum and the maximum price of the group. -/
theorem c2_aggregator_mean (l : List (String × ℚ)) (k : String)
    (hne : groupPrices l k ≠ [])
    (hcent : ∀ p ∈ groupPrices l k, twoDecimal p) :
    ((k, round2 ((groupPrices l k).sum / ((groupPrices l k).length : ℚ))) ∈ meanPrices l
      ∧ ∀ m, (k, m) ∈ meanPrices l →
          m = round2 ((groupPrices l k).sum / ((groupPrices l k).length : ℚ)))
    ∧ ∃ lo ∈ groupPrices l k, ∃ hi ∈ groupPrices l k,
        (∀ p ∈ groupPrices l k, lo ≤ p ∧ p ≤ hi)
        ∧ lo ≤ round2 ((groupPrices l k).sum / ((groupPrices l k).length : ℚ))
        ∧ round2 ((groupPrices l k).sum / ((groupPrices l k).length : ℚ)) ≤ hi := by
  have hkmem : k ∈ (l.map Prod.fst).dedup := by
    rw [List.mem_dedup]
    unfold groupPrices at hne
    rcases List.exists_mem_of_ne_nil _ hne with ⟨p, hp⟩
    rw [List.mem_map] at hp
    obtain ⟨r, hr, -⟩ := hp
    rw [List.mem_filter] at hr
    have : r.1 = k := by simpa using hr.2
    exact this ▸ List.mem_map_of_mem _ hr.1
  constructor
  · constructor
    · exact List.mem_map_of_mem _ hkmem
    · intro m hm
      unfold meanPrices at hm
      rw [List.mem_map] at hm
      obtain ⟨k', -, hk'⟩ := hm
      have h1 : k' = k := congrArg Prod.fst hk'
      have h2 := congrArg Prod.snd hk'
      simp only at h2
      rw [← h2, h1]
  · obtain ⟨lo, hlo, hmin⟩ := exists_min_mem _ hne
    obtain ⟨hi, hhi, hmax⟩ := exists_max_mem _ hne
    have hlen : (0 : ℚ) < ((groupPrices l k).length : ℚ) := by
      have : 0 < (groupPrices l k).length := List.length_pos.mpr hne
      exact_mod_cast this
    have hmean_lo : lo ≤ (groupPrices l k).sum / ((groupPrices l k).length : ℚ) := by
      rw [le_div_iff₀ hlen]
      exact mul_length_le_sum hmin
    have hmean_hi : (groupPrices l k).sum / ((groupPrices l k).length : ℚ) ≤ hi := by
      rw [div_le_iff₀ hlen]
      exact sum_le_mul_length hmax
    refine ⟨lo, hlo, hi, hhi, fun p hp => ⟨hmin p hp, hmax p hp⟩, ?_, ?_⟩
    · calc lo = round2 lo := (round2_fix (hcent lo hlo)).symm
        _ ≤ _ := round2_mono hmean_lo
    · calc round2 ((groupPrices l k).sum / ((groupPrices l k).length : ℚ))
          ≤ round2 hi := round2_mono hmean_hi
        _ = hi := round2_fix (hcent hi hhi)

/-- The cleaned form of the scenario from the spec: two Zurich rows. -/
def aggExample : List (String × ℚ) := [("Zurich", 500000), ("Zurich", 300000)]

/-- Closed instance of `c2_aggregator_mean` on the scenario group. -/
theorem c2_witness :
    ("Zurich", round2 ((groupPrices aggExample "Zurich").sum
        / ((groupPrices aggExample "Zurich").length : ℚ))) ∈ meanPrices aggExample :=
  (c2_aggregator_mean aggExample "Zurich" (by decide)
    (by
      intro p hp
      have : p = 500000 ∨ p = 300000 := by
        simpa [groupPrices, aggExample] using hp
      rcases this with h | h <;> subst h <;> norm_num [twoDecimal])).1.1

/- ### Ranker (app_local.py lines 54 and 71): `nlargest(5)` / `nsmallest(5)` -/

/-- Model of the Series nlargest method: stable sort by value descending,
first `n` entries. -/
def nlargest (n : ℕ) (l : List (String × ℚ)) : List (String × ℚ) :=
  (l.mergeSort (fun a b => decide (b.2 ≤ a.2))).take n

/-- Model of the Series nsmallest method: stable sort by value ascending,
first `n` entries. -/
def nsmallest (n : ℕ) (l : List (String × ℚ)) : List (String × ℚ) :=
  (l.mergeSort (fun a b => decide (a.2 ≤ b.2))).take n

theorem take_sorted_bound {α : Type} (le : α → α → Bool)
    (htrans : ∀ a b c, le a b → le b c → le a c)
    (htotal : ∀ a b, le a b || le b a)
    (l : List α) (n : ℕ) :
    ((l.mergeSort le).take n).length = min n l.length
    ∧ (((l.mergeSort le).take n) ++ ((l.mergeSort le).drop n)).Perm l
    ∧ ∀ x ∈ (l.mergeSort le).take n, ∀ y ∈ (l.mergeSort le).drop n, le x y := by
  have hsort : (l.mergeSort le).Pairwise (fun a b => le a b) :=
    List.sorted_mergeSort htrans htotal l
  refine ⟨?_, ?_, ?_⟩
  · rw [List.length_take, List.length_mergeSort]
  · have hp := List.mergeSort_perm l le
    rw [← List.take_append_drop n (l.mergeSort le)] at hp
    exact hp
  · have hs2 : ((l.mergeSort le).take n ++ (l.mergeSort le).drop n).Pairwise
        (fun a b => le a b = true) := by
      rw [List.take_append_drop n (l.mergeSort le)]
      exact hsort
    exact fun x hx y hy => (List.pairwise_append.mp hs2).2.2 x hx y hy

/-- C3: the Ranked Subset has exactly `min n (number of aggregates)` entries,
and splits the aggregates into returned and non-returned parts such that in
direction largest every returned mean is at least every non-returned mean,
and in direction smallest the reverse. -/
theorem c3_ranker (l : List (String × ℚ)) (n : ℕ) :
    ((nlargest n l).length = min n l.length
      ∧ ∃ rest, ((nlargest n l) ++ rest).Perm l
          ∧ ∀ x ∈ nlargest n l, ∀ y ∈ rest, y.2 ≤ x.2)
    ∧ ((nsmallest n l).length = min n l.length
      ∧ ∃ rest, ((nsmallest n l) ++ rest).Perm l
          ∧ ∀ x ∈ nsmallest n l, ∀ y ∈ rest, x.2 ≤ y.2) := by
  constructor
  · obtain ⟨h1, h2, h3⟩ := take_sorted_bound (fun a b : String × ℚ => decide (b.2 ≤ a.2))
      (fun a b c hab hbc => by
        simp only [decide_eq_true_eq] at *
        exact le_trans hbc hab)
      (fun a b => by
        simp only [Bool.or_eq_true, decide_eq_true_eq]
        exact le_total b.2 a.2)
      l n
    exact ⟨h1, _, h2, fun x hx y hy => of_decide_eq_true (h3 x hx y hy)⟩
  · obtain ⟨h1, h2, h3⟩ := take_sorted_bound (fun a b : String × ℚ => decide (a.2 ≤ b.2))
      (fun a b c hab hbc => by
        simp only [decide_eq_true_eq] at *
        exact le_trans hab hbc)
      (fun a b => by
        simp only [Bool.or_eq_true, decide_eq_true_eq]
        exact le_total a.2 b.2)
      l n
    exact ⟨h1, _, h2, fun x hx y hy => of_decide_eq_true (h3 x hx y hy)⟩

/-- Three localities, as in the spec scenario with N=5 requested. -/
def rankExample : List (String × ℚ) :=
  [("Zurich", 400000), ("Bern", 250000), ("Basel", 300000)]

/-- Closed instance of `c3_ranker`: with only 3 localities and N=5 the
returned subset has exactly 3 entries. -/
theorem c3_witness :
    (nlargest 5 rankExample).length = min 5 rankExample.length :=
  ((c3_ranker rankExample 5).1).1

/- ### Full pipeline on all-invalid input (spec scenario: every price null,
unparseable, or nonpositive) -/

/-- Hand the cleaned rows to the aggregator: the Locality/Price pairs of the
rows whose price cell is numeric (after the Cleaner, all of them are). -/
def toAgg (l : List Row) : List (String × ℚ) :=
  l.filterMap (fun r => match r.price with
    | Val.num q => some (r.locality, q)
    | _ => none)

/-- C8: if the price of every row is null, unparseable, or nonpositive, the
Cleaner yields no rows, the Aggregator yields no locality aggregates, and the
Ranker yields an empty sequence for every N, in both directions. -/
theorem c8_all_invalid_empty (l : List Row) (n : ℕ)
    (h : ∀ r ∈ l, toNumericVal r.price = none
        ∨ ∃ q : ℚ, toNumericVal r.price = some q ∧ q ≤ 0) :
    cleaner l = [] ∧ meanPrices (toAgg (cleaner l)) = []
      ∧ nlargest n (meanPrices (toAgg (cleaner l))) = []
      ∧ nsmallest n (meanPrices (toAgg (cleaner l))) = [] := by
  have hclean : cleaner l = [] := by
    unfold cleaner
    rw [List.filter_eq_nil_iff]
    intro r' hr'
    rw [List.mem_map] at hr'
    obtain ⟨r, hr, hrr⟩ := hr'
    subst hrr
    rcases h r hr with hn | ⟨q, hq, hq0⟩
    · simp [keepVal, cleanVal, hn]
    · have : round2 q ≤ 0 := by
        calc round2 q ≤ round2 0 := round2_mono hq0
          _ = 0 := round2_zero
      simp only [keepVal, cleanVal, hq]
      simpa using not_lt.mpr this
  rw [hclean]
  refine ⟨rfl, rfl, ?_, ?_⟩ <;> simp [nlargest, nsmallest, meanPrices, toAgg, List.mergeSort]

/-- All-invalid rows: zero price, unparseable price, negative price. -/
def invalidRows : List Row :=
  [⟨"Bern", Val.num 0⟩, ⟨"Genf", Val.str "abc"⟩, ⟨"Basel", Val.num (-5)⟩]

/-- Closed instance of `c8_all_invalid_empty` on `invalidRows` with N = 5. -/
theorem c8_witness : cleaner invalidRows = [] :=
  (c8_all_invalid_empty invalidRows 5 (by
    intro r hr
    have : r = ⟨"Bern", Val.num 0⟩ ∨ r = ⟨"Genf", Val.str "abc"⟩
        ∨ r = ⟨"Basel", Val.num (-5)⟩ := by
      simpa [invalidRows] using hr
    rcases this with h | h | h <;> subst h
    · exact Or.inr ⟨0, rfl, le_refl 0⟩
    · refine Or.inl ?_
      simp +decide [toNumericVal, parseDecimal]
    · exact Or.inr ⟨-5, rfl, by norm_num⟩)).1

/- ### Schema Normalizer and preprocess_data (app_snowflake.py lines 30-47) -/

/-- The column mapping passed to the rename call: exactly the ten lowercase
source names, each sent to its uppercase canonical form. -/
def renameMap : List (String × String) :=
  [("price", "PRICE"), ("housetype", "HOUSETYPE"), ("size", "SIZE"),
   ("lotsize", "LOTSIZE"), ("balcony", "BALCONY"), ("livingspace", "LIVINGSPACE"),
   ("numberrooms", "NUMBERROOMS"), ("yearbuilt", "YEARBUILT"),
   ("locality", "LOCALITY"), ("postalcode", "POSTALCODE")]

/-- Action of the rename on one column label: replaced when it is a key of
the mapping, kept unchanged otherwise. -/
def applyRename (m : List (String × String)) (c : String) : String :=
  match m.lookup c with
  | some c2 => c2
  | none => c

/-- The canonical (uppercase) field names. -/
def canonicalCols : List String := renameMap.map Prod.snd

/-- A DataFrame: ordered column labels and rows of cells, each row aligned
positionally with the labels. -/
structure DF where
  cols : List String
  rows : List (List Val)
deriving DecidableEq, Repr

/-- The in-place rename of the frame: relabels columns, touching neither the
cells nor unrecognized labels. -/
def renameDF (df : DF) : DF :=
  { df with cols := df.cols.map (applyRename renameMap) }

/-- Selection of the single PRICE column for the numeric coercion.  Pandas
raises KeyError when no column carries the label; with duplicate labels
(both price and PRICE in the source, renamed to two PRICE columns) the
selection returns a two-column frame and the numeric coercion raises
TypeError, so no column position is produced on either failure path. -/
def priceColIdx (d : DF) : Except String ℕ :=
  match d.cols.findIdx? (fun x => x == "PRICE") with
  | none => Except.error "KeyError: PRICE"
  | some i =>
    if 2 ≤ d.cols.count "PRICE" then Except.error "TypeError: PRICE"
    else Except.ok i

/-- Cell of a row at column position `i`. -/
def getCell (row : List Val) (i : ℕ) : Val := row.getD i Val.null

/-- The in-place assignment of the coerced, rounded PRICE column: overwrite
column `i` of every row with its coerced, rounded value. -/
def coercePriceCol (df : DF) (i : ℕ) : DF :=
  { df with rows := df.rows.map (fun row => row.set i (cleanVal (getCell row i))) }

/-- The positive-price filter: keep the rows whose cell at column `i`
compares greater than zero. -/
def filterPriceCol (df : DF) (i : ℕ) : DF :=
  { df with rows := df.rows.filter (fun row => keepVal (getCell row i)) }

/-- Model of preprocess_data: rename, then coerce and filter on the PRICE
column; an absent PRICE column raises KeyError, duplicate PRICE columns make
the coercion raise TypeError. -/
def preprocess (df : DF) : Except String DF :=
  match priceColIdx (renameDF df) with
  | Except.error e => Except.error e
  | Except.ok i => Except.ok (filterPriceCol (coercePriceCol (renameDF df) i) i)

/-- State of the frame object of the caller after preprocess_data
returns: the rename and the PRICE assignment are in-place, while the final
filter builds a fresh frame bound only to the local name. -/
def preprocessInputAfter (df : DF) : DF :=
  match priceColIdx (renameDF df) with
  | Except.error _ => renameDF df
  | Except.ok i => coercePriceCol (renameDF df) i

theorem applyRename_eq_upper_iff (c : String) :
    applyRename renameMap c = "PRICE" ↔ c = "price" ∨ c = "PRICE" := by
  constructor
  · intro h
    unfold applyRename at h
    cases hl : renameMap.lookup c with
    | none =>
      rw [hl] at h
      exact Or.inr h
    | some v =>
      rw [hl] at h
      have hv : v = "PRICE" := h
      subst hv
      rw [List.lookup_eq_some_iff] at hl
      obtain ⟨l1, l2, hsplit, -⟩ := hl
      have hmem : (c, "PRICE") ∈ renameMap := by
        rw [hsplit]; simp
      left
      simp +decide [renameMap] at hmem
      exact hmem
  · rintro (rfl | rfl) <;> decide

theorem applyRename_ne_lower (c : String) :
    applyRename renameMap c ≠ "price" := by
  unfold applyRename
  cases hl : renameMap.lookup c with
  | none =>
    show c ≠ "price"
    rintro rfl
    exact absurd hl (by decide)
  | some v =>
    show v ≠ "price"
    rintro rfl
    rw [List.lookup_eq_some_iff] at hl
    obtain ⟨l1, l2, hsplit, -⟩ := hl
    have hmem : (c, "price") ∈ renameMap := by
      rw [hsplit]; simp
    simp +decide [renameMap] at hmem

/-- C4 counterexample: the mapping is not case-insensitive — the very casing
`Price` that the claim lists is left unmapped, while `price` goes to `PRICE`. -/
theorem c4_counterexample :
    applyRename renameMap "price" = "PRICE"
    ∧ applyRename renameMap "Price" = "Price"
    ∧ applyRename renameMap "Price" ≠ applyRename renameMap "price" := by
  refine ⟨?_, ?_, ?_⟩ <;> decide

/-- C4 amended: the rename is exact-match, not case-insensitive — each of the
ten lowercase source names goes to its uppercase canonical form, an
already-uppercase canonical name is left as itself, and any other casing
(e.g. `Price`) is kept unchanged rather than mapped. -/
theorem c4_rename_exact_lowercase :
    (renameMap.all (fun p =>
        applyRename renameMap p.1 == p.2 && applyRename renameMap p.2 == p.2)) = true
    ∧ applyRename renameMap "Price" = "Price" := by
  exact ⟨by decide, by decide⟩

/-- A row-shaped table without any price-named column. -/
def dfNoPrice : DF :=
  ⟨["LOCALITY", "HOUSETYPE"], [[Val.str "Zurich", Val.str "flat"]]⟩

/-- C5 counterexample: normalization followed by cleaning fails on a
perfectly row-oriented table that merely lacks a price column. -/
theorem c5_counterexample : (preprocess dfNoPrice).isOk = false := by decide

/-- Renaming a column list sends exactly the labels spelled price or PRICE
to the label PRICE, so the renamed list carries one PRICE label per
occurrence of either spelling in the source. -/
theorem count_map_applyRename (l : List String) :
    (l.map (applyRename renameMap)).count "PRICE"
      = l.count "price" + l.count "PRICE" := by
  induction l with
  | nil => rfl
  | cons c t ih =>
    rw [List.map_cons, List.count_cons, List.count_cons, List.count_cons, ih]
    by_cases h1 : c = "price"
    · subst h1
      simp +decide
      omega
    · by_cases h2 : c = "PRICE"
      · subst h2
        simp +decide
        omega
      · have e1 : applyRename renameMap c ≠ "PRICE" := by
          intro h
          rcases (applyRename_eq_upper_iff c).mp h with rfl | rfl
          · exact h1 rfl
          · exact h2 rfl
        simp only [beq_iff_eq]
        rw [if_neg e1, if_neg h1, if_neg h2]
        omega

/-- Case analysis of the PRICE selection: no PRICE label raises KeyError,
two or more raise TypeError, exactly one yields a position. -/
theorem priceColIdx_spec (d : DF) :
    (d.cols.count "PRICE" = 0 → priceColIdx d = Except.error "KeyError: PRICE")
    ∧ (2 ≤ d.cols.count "PRICE" → priceColIdx d = Except.error "TypeError: PRICE")
    ∧ (d.cols.count "PRICE" = 1 → ∃ i, priceColIdx d = Except.ok i) := by
  unfold priceColIdx
  cases hf : d.cols.findIdx? (fun x => x == "PRICE") with
  | none =>
    rw [List.findIdx?_eq_none_iff] at hf
    have hnm : "PRICE" ∉ d.cols := by
      intro hm
      have := hf _ hm
      simp at this
    have hz : d.cols.count "PRICE" = 0 := List.count_eq_zero.mpr hnm
    exact ⟨fun _ => rfl, fun h => absurd h (by omega), fun h => absurd h (by omega)⟩
  | some i =>
    have hmem : "PRICE" ∈ d.cols := by
      by_contra hnm
      have hn : d.cols.findIdx? (fun x => x == "PRICE") = none :=
        List.findIdx?_eq_none_iff.mpr (fun x hx => by
          rw [beq_eq_false_iff_ne]
          rintro rfl
          exact hnm hx)
      rw [hn] at hf
      exact Option.noConfusion hf
    have hpos : 0 < d.cols.count "PRICE" := List.count_pos_iff.mpr hmem
    by_cases hdup : 2 ≤ d.cols.count "PRICE"
    · refine ⟨fun h => absurd h (by omega), fun _ => ?_, fun h => absurd h (by omega)⟩
      dsimp only
      rw [if_pos hdup]
    · refine ⟨fun h => absurd h (by omega), fun h => absurd h hdup, fun _ => ⟨i, ?_⟩⟩
      dsimp only
      rw [if_neg hdup]

/-- The three outcomes of preprocess, keyed by how many PRICE labels the
renamed column list carries. -/
theorem preprocess_cases (df : DF) :
    ((renameDF df).cols.count "PRICE" = 0 →
        preprocess df = Except.error "KeyError: PRICE")
    ∧ (2 ≤ (renameDF df).cols.count "PRICE" →
        preprocess df = Except.error "TypeError: PRICE")
    ∧ ((renameDF df).cols.count "PRICE" = 1 → (preprocess df).isOk = true) := by
  obtain ⟨hk, ht, ho⟩ := priceColIdx_spec (renameDF df)
  refine ⟨fun h => ?_, fun h => ?_, fun h => ?_⟩
  · unfold preprocess
    rw [hk h]
  · unfold preprocess
    rw [ht h]
  · obtain ⟨i, hi⟩ := ho h
    unfold preprocess
    rw [hi]
    rfl

/-- C5 amended: the pipeline succeeds exactly when the source carries one
column spelled price or PRICE (counting both spellings together); zero such
columns raise KeyError, and two or more — e.g. both spellings at once, which
the rename collapses into duplicate PRICE labels — make the numeric coercion
raise TypeError.  Absence of any other recognized column never causes
failure. -/
theorem c5_preprocess_ok_iff (df : DF) :
    ((preprocess df).isOk = true ↔
        df.cols.count "price" + df.cols.count "PRICE" = 1)
    ∧ (df.cols.count "price" + df.cols.count "PRICE" = 0 →
        preprocess df = Except.error "KeyError: PRICE")
    ∧ (2 ≤ df.cols.count "price" + df.cols.count "PRICE" →
        preprocess df = Except.error "TypeError: PRICE") := by
  have hcount : (renameDF df).cols.count "PRICE"
      = df.cols.count "price" + df.cols.count "PRICE" :=
    count_map_applyRename df.cols
  obtain ⟨hk, ht, ho⟩ := preprocess_cases df
  refine ⟨⟨fun hOk => ?_, fun h1 => ho (by omega)⟩,
    fun h0 => hk (by omega), fun h2 => ht (by omega)⟩
  by_contra hne
  have hsplit : df.cols.count "price" + df.cols.count "PRICE" = 0
      ∨ 2 ≤ df.cols.count "price" + df.cols.count "PRICE" := by omega
  rcases hsplit with h | h
  · rw [hk (by omega)] at hOk
    exact absurd hOk (by simp [Except.isOk, Except.toBool])
  · rw [ht (by omega)] at hOk
    exact absurd hOk (by simp [Except.isOk, Except.toBool])

/-- A minimal table with a lowercase price column and one row with a missing
price. -/
def dfWithPrice : DF := ⟨["price"], [[Val.null]]⟩

/-- A table carrying both spellings of the price column, which the rename
collapses into duplicate PRICE labels. -/
def dfBothPrice : DF := ⟨["price", "PRICE"], [[Val.null, Val.null]]⟩

/-- Closed instance of `c5_preprocess_ok_iff`: one price spelling
preprocesses successfully, both spellings at once raise TypeError. -/
theorem c5_witness :
    (preprocess dfWithPrice).isOk = true
    ∧ preprocess dfBothPrice = Except.error "TypeError: PRICE" :=
  ⟨((c5_preprocess_ok_iff dfWithPrice).1).mpr (by decide),
   ((c5_preprocess_ok_iff dfBothPrice).2).2 (by decide)⟩

/-- A table with a price column and an unrecognized column `foo`. -/
def dfFoo : DF := ⟨["price", "foo"], [[Val.null, Val.str "x"]]⟩

/-- C6 counterexample: the normalized output keeps the unrecognized column
`foo` instead of dropping it, and does not add the absent canonical field
`BALCONY` as a null column, so the output field set is not the canonical
set. -/
theorem c6_counterexample :
    (preprocess dfFoo).toOption = some ⟨["PRICE", "foo"], []⟩
    ∧ "foo" ∉ canonicalCols
    ∧ "BALCONY" ∈ canonicalCols
    ∧ "BALCONY" ∉ (renameDF dfFoo).cols := by
  refine ⟨?_, ?_, ?_, ?_⟩ <;> decide

/-- C6 amended: the Normalizer only relabels — the output columns are the
input columns with recognized lowercase names uppercased, so unrecognized
columns are retained, absent canonical fields stay absent, and the cleaning
stage never grows the row count. -/
theorem c6_normalizer_relabels_only (df : DF) (d : DF)
    (h : (preprocess df).toOption = some d) :
    d.cols = df.cols.map (applyRename renameMap)
    ∧ d.rows.length ≤ df.rows.length := by
  unfold preprocess at h
  cases hc : priceColIdx (renameDF df) with
  | error e =>
    rw [hc] at h
    simp [Except.toOption] at h
  | ok i =>
    rw [hc] at h
    simp only [Except.toOption, Option.some.injEq] at h
    subst h
    constructor
    · show (filterPriceCol (coercePriceCol (renameDF df) i) i).cols = _
      simp [filterPriceCol, coercePriceCol, renameDF]
    · show ((filterPriceCol (coercePriceCol (renameDF df) i) i).rows).length ≤ _
      simp only [filterPriceCol, coercePriceCol, renameDF]
      exact le_trans (List.length_filter_le _ _)
        (le_of_eq (List.length_map _ _))

/-- Closed instance of `c6_normalizer_relabels_only` on `dfFoo`. -/
theorem c6_witness :
    (⟨["PRICE", "foo"], []⟩ : DF).cols = dfFoo.cols.map (applyRename renameMap)
    ∧ (⟨["PRICE", "foo"], []⟩ : DF).rows.length ≤ dfFoo.rows.length :=
  c6_normalizer_relabels_only dfFoo ⟨["PRICE", "foo"], []⟩ (by decide)

/-- C9 counterexample: the table object handed to `preprocess_data` is not
unchanged after the stage runs — its columns have been renamed in place. -/
theorem c9_counterexample : preprocessInputAfter dfWithPrice ≠ dfWithPrice := by
  decide

/-- C9 amended: preprocess_data mutates its input frame — after the call
the input object carries the renamed columns (and, when a `PRICE` column
exists, in-place coerced prices), the row count unchanged; in particular the
input is never left equal to itself once it has a lowercase `price` column. -/
theorem c9_preprocess_mutates_input (df : DF) :
    ((preprocessInputAfter df).cols = df.cols.map (applyRename renameMap)
      ∧ (preprocessInputAfter df).rows.length = df.rows.length)
    ∧ ("price" ∈ df.cols → preprocessInputAfter df ≠ df) := by
  have hcols : (preprocessInputAfter df).cols = df.cols.map (applyRename renameMap) := by
    unfold preprocessInputAfter
    cases hc : priceColIdx (renameDF df) <;> simp [coercePriceCol, renameDF]
  have hlen : (preprocessInputAfter df).rows.length = df.rows.length := by
    unfold preprocessInputAfter
    cases hc : priceColIdx (renameDF df) <;> simp [coercePriceCol, renameDF]
  refine ⟨⟨hcols, hlen⟩, ?_⟩
  intro hp heq
  have h2 : df.cols.map (applyRename renameMap) = df.cols := by
    rw [← hcols, heq]
  rw [← h2] at hp
  rw [List.mem_map] at hp
  obtain ⟨c, -, hc2⟩ := hp
  exact applyRename_ne_lower c hc2

/-- Closed instance of `c9_preprocess_mutates_input` at `dfWithPrice`. -/
theorem c9_witness : preprocessInputAfter dfWithPrice ≠ dfWithPrice :=
  (c9_preprocess_mutates_input dfWithPrice).2 (by decide)
